import Mathlib

/-!
Verification of the cobbler repository's core behaviours: the CLI's target
resolver, discovery collection loops and fan-out dispatch (src/cli/src/main.rs),
and the daemon's upgrade gate and status endpoint (src/daemon/src/main.rs).
Strings are embedded as `List Char`; each definition mirrors the Rust source
function named in its doc comment.
-/

namespace Cobbler

/-! ## Target resolver (src/cli/src/main.rs, `resolve_url`) -/

/-- Rust `str::trim_end_matches(c)`: remove every trailing occurrence of `c`. -/
def trimEndMatches (c : Char) (s : List Char) : List Char :=
  (s.reverse.dropWhile (fun x => x = c)).reverse

/-- Worker for `splitOn`: `acc` holds the current segment reversed. -/
def splitOnAux (sep : Char) : List Char → List Char → List (List Char)
  | [], acc => [acc.reverse]
  | c :: cs, acc =>
    if c = sep then acc.reverse :: splitOnAux sep cs []
    else splitOnAux sep cs (c :: acc)

/-- Rust `str::split(sep)` collected into a vector of segments. -/
def splitOn (sep : Char) (s : List Char) : List (List Char) :=
  splitOnAux sep s []

/-- Rust `[&str]::join(":")`. -/
def joinColon : List (List Char) → List Char
  | [] => []
  | [x] => x
  | x :: y :: xs => x ++ ':' :: joinColon (y :: xs)

/-- `resolve_url` from src/cli/src/main.rs lines 451-467: scheme-prefixed
targets are returned with trailing slashes stripped; otherwise, when the
segment after the last colon is all ASCII digits, the string is treated as
host:port (bracketing an unbracketed host that itself contains a colon);
otherwise it is a bare host. -/
def resolve_url (target : List Char) : List Char :=
  if ("http://".data.isPrefixOf target || "https://".data.isPrefixOf target) then
    trimEndMatches '/' target
  else if (target.contains ':' &&
      ((splitOn ':' target).getLastD []).all (fun c => c.isDigit)) then
    let parts := splitOn ':' target
    let host := joinColon parts.dropLast
    let port := parts.getLastD []
    if (host.contains ':' && !(['['].isPrefixOf host)) then
      "http://[".data ++ host ++ ']' :: ':' :: port
    else
      "http://".data ++ host ++ ':' :: port
  else
    "http://".data ++ trimEndMatches '/' target

/-- The substring after the last occurrence of `sep` (the whole string when
`sep` does not occur), written directly from the spec's phrase "the substring
after the last colon". -/
def afterLastSep (sep : Char) : List Char → List Char
  | [] => []
  | c :: cs =>
    if sep ∈ cs then afterLastSep sep cs
    else if c = sep then cs
    else c :: cs

/-- Everything before the last occurrence of `sep` (empty when `sep` does not
occur), written directly from the spec's phrase "everything before the last
colon". -/
def beforeLastSep (sep : Char) : List Char → List Char
  | [] => []
  | c :: cs => if sep ∈ cs then c :: beforeLastSep sep cs else []

/-- The resolver as the spec states it, rule by rule: (1) HTTP(S)-prefixed
input is returned with trailing slashes stripped; (2) else, when the input
contains a colon and the substring after the last colon is entirely ASCII
digits, everything before the last colon is the host and the digits the port,
the host being wrapped in square brackets when it contains a colon and is not
already bracketed; (3) else `http://` is prepended to the slash-stripped input. -/
def resolve_url_spec (raw : List Char) : List Char :=
  if ("http://".data.isPrefixOf raw || "https://".data.isPrefixOf raw) then
    trimEndMatches '/' raw
  else if (raw.contains ':' && (afterLastSep ':' raw).all (fun c => c.isDigit)) then
    let host := beforeLastSep ':' raw
    let port := afterLastSep ':' raw
    if (host.contains ':' && !(['['].isPrefixOf host)) then
      "http://[".data ++ host ++ ']' :: ':' :: port
    else
      "http://".data ++ host ++ ':' :: port
  else
    "http://".data ++ trimEndMatches '/' raw

theorem splitOnAux_ne_nil (sep : Char) (cs acc : List Char) :
    splitOnAux sep cs acc ≠ [] := by
  induction cs generalizing acc with
  | nil => simp [splitOnAux]
  | cons c cs ih =>
    by_cases hc : c = sep <;> simp [splitOnAux, hc, ih]

theorem splitOnAux_of_not_mem (sep : Char) (cs acc : List Char)
    (h : sep ∉ cs) : splitOnAux sep cs acc = [acc.reverse ++ cs] := by
  induction cs generalizing acc with
  | nil => simp [splitOnAux]
  | cons c cs ih =>
    have hc : ¬ c = sep := fun hh => h (hh ▸ List.mem_cons_self c cs)
    have hcs : sep ∉ cs := fun hh => h (List.mem_cons_of_mem c hh)
    simp [splitOnAux, hc, ih _ hcs]

theorem splitOnAux_length_ge_two (sep : Char) (cs acc : List Char)
    (h : sep ∈ cs) : 2 ≤ (splitOnAux sep cs acc).length := by
  induction cs generalizing acc with
  | nil => simp at h
  | cons c cs ih =>
    by_cases hc : c = sep
    · have := splitOnAux_ne_nil sep cs ([] : List Char)
      simp only [splitOnAux, if_pos hc, List.length_cons]
      have h1 : 1 ≤ (splitOnAux sep cs []).length :=
        Nat.one_le_iff_ne_zero.mpr (by simpa [List.length_eq_zero] using this)
      omega
    · have hcs : sep ∈ cs := by
        rcases List.mem_cons.mp h with h' | h'
        · exact absurd h'.symm hc
        · exact h'
      simpa [splitOnAux, hc] using ih (c :: acc) hcs

theorem getLastD_splitOnAux (sep : Char) (cs acc : List Char) (d : List Char) :
    (splitOnAux sep cs acc).getLastD d =
      if sep ∈ cs then afterLastSep sep cs else acc.reverse ++ cs := by
  induction cs generalizing acc d with
  | nil => simp [splitOnAux, afterLastSep]
  | cons c cs ih =>
    by_cases hc : c = sep
    · rw [show splitOnAux sep (c :: cs) acc
            = acc.reverse :: splitOnAux sep cs [] by simp [splitOnAux, hc]]
      rw [List.getLastD_cons, ih]
      by_cases hm : sep ∈ cs
      · simp [afterLastSep, hm, hc]
      · simp [afterLastSep, hm, hc]
    · rw [show splitOnAux sep (c :: cs) acc
            = splitOnAux sep cs (c :: acc) by simp [splitOnAux, hc]]
      rw [ih]
      by_cases hm : sep ∈ cs
      · have hmem : sep ∈ c :: cs := List.mem_cons_of_mem c hm
        simp [afterLastSep, hm, hmem]
      · have hnot : sep ∉ c :: cs := by
          intro hh
          rcases List.mem_cons.mp hh with h' | h'
          · exact hc h'.symm
          · exact hm h'
        simp [afterLastSep, hm, hnot, hc]

theorem dropLast_cons_of_ne_nil {α : Type} (x : α) (l : List α) (h : l ≠ []) :
    (x :: l).dropLast = x :: l.dropLast := by
  cases l with
  | nil => exact absurd rfl h
  | cons y ys => rfl

theorem joinColon_dropLast_splitOnAux (cs acc : List Char) :
    joinColon ((splitOnAux ':' cs acc).dropLast) =
      if ':' ∈ cs then acc.reverse ++ beforeLastSep ':' cs else [] := by
  induction cs generalizing acc with
  | nil => simp [splitOnAux, joinColon, beforeLastSep]
  | cons c cs ih =>
    by_cases hc : c = ':'
    · by_cases hm : ':' ∈ cs
      · have hne : splitOnAux ':' cs ([] : List Char) ≠ [] :=
          splitOnAux_ne_nil ':' cs []
        have hlen : 2 ≤ (splitOnAux ':' cs ([] : List Char)).length :=
          splitOnAux_length_ge_two ':' cs [] hm
        have hdne : (splitOnAux ':' cs ([] : List Char)).dropLast ≠ [] := by
          intro hz
          have := congrArg List.length hz
          simp [List.length_dropLast] at this
          omega
        rw [show splitOnAux ':' (c :: cs) acc
              = acc.reverse :: splitOnAux ':' cs [] by simp [splitOnAux, hc]]
        rw [dropLast_cons_of_ne_nil _ _ hne]
        obtain ⟨y, ys, hys⟩ := List.exists_cons_of_ne_nil hdne
        rw [hys, joinColon]
        rw [← hys, ih []]
        simp [hc, hm, beforeLastSep]
      · rw [show splitOnAux ':' (c :: cs) acc
              = acc.reverse :: splitOnAux ':' cs [] by simp [splitOnAux, hc]]
        rw [splitOnAux_of_not_mem ':' cs [] hm]
        simp [joinColon, hc, hm, beforeLastSep]
    · by_cases hm : ':' ∈ cs
      · have : ':' ∈ c :: cs := List.mem_cons_of_mem c hm
        simp only [splitOnAux, if_neg hc, ih (c :: acc), if_pos hm, if_pos this,
          beforeLastSep, List.reverse_cons]
        simp
      · have hnot : ':' ∉ c :: cs := by
          intro hh
          rcases List.mem_cons.mp hh with h' | h'
          · exact hc h'.symm
          · exact hm h'
        simp only [splitOnAux, if_neg hc]
        rw [splitOnAux_of_not_mem ':' cs (c :: acc) hm]
        simp [joinColon, hnot, hm]

/-- The embedded `resolve_url` agrees with the spec's rule-by-rule resolver on
every input. -/
theorem resolve_url_eq_spec (raw : List Char) :
    resolve_url raw = resolve_url_spec raw := by
  unfold resolve_url resolve_url_spec
  by_cases hp : ("http://".data.isPrefixOf raw || "https://".data.isPrefixOf raw) = true
  · simp [hp]
  · simp only [hp, Bool.false_eq_true, if_false]
    by_cases hm : ':' ∈ raw
    · have hlast : ∀ d, (splitOn ':' raw).getLastD d = afterLastSep ':' raw := by
        intro d
        rw [splitOn, getLastD_splitOnAux, if_pos hm]
      have hhost : joinColon ((splitOn ':' raw).dropLast) = beforeLastSep ':' raw := by
        rw [splitOn, joinColon_dropLast_splitOnAux, if_pos hm]
        simp
      rw [hlast, hhost]
    · simp [hm]

theorem afterLastSep_append_colon (l : List Char) :
    afterLastSep ':' (l ++ [':']) = [] := by
  induction l with
  | nil => simp [afterLastSep]
  | cons c l ih =>
    have hmem : ':' ∈ l ++ [':'] := by simp
    simp [afterLastSep, hmem, ih]

theorem beforeLastSep_append_colon (l : List Char) :
    beforeLastSep ':' (l ++ [':']) = l := by
  induction l with
  | nil => simp [beforeLastSep]
  | cons c l ih =>
    have hmem : ':' ∈ l ++ [':'] := by simp
    simp [beforeLastSep, hmem, ih]

/-- C2: the target resolver applies exactly the three rules in order —
scheme-prefixed input is returned slash-stripped; else a colon-containing
input whose substring after the last colon is all ASCII digits becomes
`http://host:port` with bracket disambiguation for a colon-containing,
unbracketed host; else `http://` is prepended — and in particular the five
round-trip examples hold. -/
theorem resolve_url_follows_spec_rules :
    (∀ raw : List Char, resolve_url raw = resolve_url_spec raw)
    ∧ resolve_url "10.0.0.5:8080".data = "http://10.0.0.5:8080".data
    ∧ resolve_url "[::1]:8080".data = "http://[::1]:8080".data
    ∧ resolve_url "fe80::1:8080".data = "http://[fe80::1]:8080".data
    ∧ resolve_url "https://h/".data = "https://h".data
    ∧ resolve_url "plainhost".data = "http://plainhost".data :=
  ⟨resolve_url_eq_spec, by decide, by decide, by decide, by decide, by decide⟩

/-- C10: an input without an HTTP(S) scheme prefix that ends in a colon passes
the all-digits test with the empty port substring, so it resolves as
host-plus-empty-port to a URL ending in a colon, not as a bare hostname. -/
theorem resolve_url_trailing_colon (l : List Char)
    (hp : ("http://".data.isPrefixOf (l ++ [':'])
        || "https://".data.isPrefixOf (l ++ [':'])) = false) :
    resolve_url (l ++ [':']) =
      (if (l.contains ':' && !(['['].isPrefixOf l)) then
        "http://[".data ++ l ++ "]:".data
      else
        "http://".data ++ l ++ [':']) := by
  have hmem : ':' ∈ l ++ [':'] := by simp
  rw [resolve_url_eq_spec]
  unfold resolve_url_spec
  rw [beforeLastSep_append_colon, afterLastSep_append_colon]
  simp only [hp, Bool.false_eq_true, if_false, List.all_nil, Bool.and_true]
  simp [hmem]

/-- Witness for C10 at the concrete input `"host:"`. -/
theorem resolve_url_trailing_colon_witness :
    resolve_url "host:".data = "http://host:".data := by
  have h := resolve_url_trailing_colon "host".data (by decide)
  simpa using h

/-! ## Discovery collection (src/cli/src/main.rs, `run_discover` lines 179-221
and `discover_targets` lines 426-447)

The mDNS channel is modelled as a list of timed receive results: each carries
the `Instant` (in abstract time units) at which `recv_timeout` would return it.
`recv_timeout remaining` returns the next item when its arrival time is within
`now + remaining`, else times out; a disconnected channel is an explicit item. -/

/-- The fields of a resolved `ServiceInfo` the collection loops read. The port
is kept in its display form, as the loops only ever format it. -/
structure SInfo where
  fullname : List Char
  addresses : List (List Char)
  port : List Char
deriving DecidableEq

/-- A `recv_timeout` outcome other than a timeout: a `ServiceEvent`, or the
channel reporting disconnection. -/
inductive REvent where
  | resolved (info : SInfo)
  | searchStopped (ty : List Char)
  | other
  | disc
deriving DecidableEq

/-- A channel item together with its arrival time. -/
structure TEv where
  t : Nat
  e : REvent
deriving DecidableEq

/-- The error `run_discover` returns when the receiver disconnects. -/
def discErrMsg : List Char := "browse: receiver disconnected".data

/-- The error `discover_targets` returns on a non-timeout receive error (the
flume error's display text is abstracted). -/
def mdnsErrMsg : List Char := "mDNS error: receiver disconnected".data

/-- The collection loop of `run_discover` (lines 179-221): while `now` is
before the deadline, wait on the channel with the remaining time
`deadline - now`; a resolved event whose full service name is not yet in the
seen set is emitted (a printed table row) and its name inserted; a timeout
breaks the loop normally; a disconnect fails the whole operation. -/
def run_discover_loop (deadline : Nat) :
    List TEv → Nat → List (List Char) → List SInfo →
      Except (List Char) (List SInfo)
  | [], _, _, acc => .ok acc
  | te :: rest, now, seen, acc =>
    if deadline ≤ now then .ok acc
    else
      let remaining := deadline - now
      if te.t ≤ now + remaining then
        match te.e with
        | .resolved info =>
          if seen.contains info.fullname then
            run_discover_loop deadline rest te.t seen acc
          else
            run_discover_loop deadline rest te.t (info.fullname :: seen)
              (acc ++ [info])
        | .disc => .error discErrMsg
        | _ => run_discover_loop deadline rest te.t seen acc
      else .ok acc

/-- The inner loop of `discover_targets` over a resolved entry's addresses:
each `addr:port` string not yet seen is inserted and pushed. Returns the
updated seen set and accumulated targets. -/
def push_targets (port : List Char) :
    List (List Char) → List (List Char) → List (List Char) →
      List (List Char) × List (List Char)
  | [], seen, acc => (seen, acc)
  | addr :: addrs, seen, acc =>
    let target := addr ++ ':' :: port
    if seen.contains target then push_targets port addrs seen acc
    else push_targets port addrs (target :: seen) (acc ++ [target])

/-- The collection loop of `discover_targets` (lines 426-447): like
`run_discover_loop` but deduplicating on the formatted `addr:port` strings,
and failing with `mdnsErrMsg` on a non-timeout receive error. -/
def discover_targets_loop (deadline : Nat) :
    List TEv → Nat → List (List Char) → List (List Char) →
      Except (List Char) (List (List Char))
  | [], _, _, acc => .ok acc
  | te :: rest, now, seen, acc =>
    if deadline ≤ now then .ok acc
    else
      let remaining := deadline - now
      if te.t ≤ now + remaining then
        match te.e with
        | .resolved info =>
          let sa := push_targets info.port info.addresses seen acc
          discover_targets_loop deadline rest te.t sa.1 sa.2
        | .disc => .error mdnsErrMsg
        | _ => discover_targets_loop deadline rest te.t seen acc
      else .ok acc

/-- The prefix of the channel a loop with the given deadline actually
consumes: it stops once `now` reaches the deadline or the next item would
arrive after it. -/
def consumedPrefix (deadline : Nat) : List TEv → Nat → List TEv
  | [], _ => []
  | te :: rest, now =>
    if deadline ≤ now then []
    else if te.t ≤ now + (deadline - now) then
      te :: consumedPrefix deadline rest te.t
    else []

/-- The resolved `ServiceInfo`s carried by a list of channel items, in
arrival order. -/
def resolvedOf (l : List TEv) : List SInfo :=
  l.filterMap (fun te =>
    match te.e with
    | .resolved info => some info
    | _ => none)

/-- Time-free replay of `run_discover_loop` over an already-consumed list. -/
def processDiscover :
    List TEv → List (List Char) → List SInfo → Except (List Char) (List SInfo)
  | [], _, acc => .ok acc
  | te :: rest, seen, acc =>
    match te.e with
    | .resolved info =>
      if seen.contains info.fullname then processDiscover rest seen acc
      else processDiscover rest (info.fullname :: seen) (acc ++ [info])
    | .disc => .error discErrMsg
    | _ => processDiscover rest seen acc

/-- Time-free replay of `discover_targets_loop`. -/
def processTargets :
    List TEv → List (List Char) → List (List Char) →
      Except (List Char) (List (List Char))
  | [], _, acc => .ok acc
  | te :: rest, seen, acc =>
    match te.e with
    | .resolved info =>
      let sa := push_targets info.port info.addresses seen acc
      processTargets rest sa.1 sa.2
    | .disc => .error mdnsErrMsg
    | _ => processTargets rest seen acc

/-- The entries `processDiscover` emits beyond its starting accumulator. -/
def emitNew : List TEv → List (List Char) → List SInfo
  | [], _ => []
  | te :: rest, seen =>
    match te.e with
    | .resolved info =>
      if seen.contains info.fullname then emitNew rest seen
      else info :: emitNew rest (info.fullname :: seen)
    | _ => emitNew rest seen

/-- The targets `processTargets` emits beyond its starting accumulator. -/
def targetsNew : List TEv → List (List Char) → List (List Char)
  | [], _ => []
  | te :: rest, seen =>
    match te.e with
    | .resolved info =>
      let sa := push_targets info.port info.addresses seen []
      sa.2 ++ targetsNew rest sa.1
    | _ => targetsNew rest seen

theorem run_discover_loop_eq (deadline : Nat) (evs : List TEv) (now : Nat)
    (seen : List (List Char)) (acc : List SInfo) :
    run_discover_loop deadline evs now seen acc =
      processDiscover (consumedPrefix deadline evs now) seen acc := by
  induction evs generalizing now seen acc with
  | nil => simp [run_discover_loop, consumedPrefix, processDiscover]
  | cons te rest ih =>
    by_cases hd : deadline ≤ now
    · simp [run_discover_loop, consumedPrefix, processDiscover, hd]
    · by_cases ht : te.t ≤ now + (deadline - now)
      · cases he : te.e with
        | resolved info =>
          by_cases hs : seen.contains info.fullname = true <;>
            simp [run_discover_loop, consumedPrefix, processDiscover,
              hd, ht, he, hs, ih]
        | disc =>
          simp [run_discover_loop, consumedPrefix, processDiscover, hd, ht, he]
        | searchStopped ty =>
          simp [run_discover_loop, consumedPrefix, processDiscover,
            hd, ht, he, ih]
        | other =>
          simp [run_discover_loop, consumedPrefix, processDiscover,
            hd, ht, he, ih]
      · simp [run_discover_loop, consumedPrefix, processDiscover, hd, ht]

theorem discover_targets_loop_eq (deadline : Nat) (evs : List TEv) (now : Nat)
    (seen acc : List (List Char)) :
    discover_targets_loop deadline evs now seen acc =
      processTargets (consumedPrefix deadline evs now) seen acc := by
  induction evs generalizing now seen acc with
  | nil => simp [discover_targets_loop, consumedPrefix, processTargets]
  | cons te rest ih =>
    by_cases hd : deadline ≤ now
    · simp [discover_targets_loop, consumedPrefix, processTargets, hd]
    · by_cases ht : te.t ≤ now + (deadline - now)
      · cases he : te.e with
        | resolved info =>
          simp [discover_targets_loop, consumedPrefix, processTargets,
            hd, ht, he, ih]
        | disc =>
          simp [discover_targets_loop, consumedPrefix, processTargets,
            hd, ht, he]
        | searchStopped ty =>
          simp [discover_targets_loop, consumedPrefix, processTargets,
            hd, ht, he, ih]
        | other =>
          simp [discover_targets_loop, consumedPrefix, processTargets,
            hd, ht, he, ih]
      · simp [discover_targets_loop, consumedPrefix, processTargets, hd, ht]

theorem push_targets_acc (port : List Char) (addrs seen acc : List (List Char)) :
    push_targets port addrs seen acc =
      ((push_targets port addrs seen []).1,
        acc ++ (push_targets port addrs seen []).2) := by
  induction addrs generalizing seen acc with
  | nil => simp [push_targets]
  | cons addr addrs ih =>
    by_cases hs : seen.contains (addr ++ ':' :: port) = true
    · simp only [push_targets, hs, if_pos]
      exact ih seen acc
    · simp only [push_targets, hs, Bool.false_eq_true, if_neg, if_false]
      rw [ih _ (acc ++ [addr ++ ':' :: port]), ih _ ([] ++ [addr ++ ':' :: port])]
      simp

theorem processDiscover_ok :
    ∀ (l : List TEv) (seen : List (List Char)) (acc : List SInfo),
      (∀ te ∈ l, te.e ≠ REvent.disc) →
      processDiscover l seen acc = .ok (acc ++ emitNew l seen) := by
  intro l
  induction l with
  | nil => intro seen acc _; simp [processDiscover, emitNew]
  | cons te rest ih =>
    intro seen acc h
    have hrest : ∀ x ∈ rest, x.e ≠ REvent.disc :=
      fun x hx => h x (List.mem_cons_of_mem te hx)
    cases he : te.e with
    | resolved info =>
      by_cases hs : info.fullname ∈ seen
      · simp [processDiscover, emitNew, he, hs, ih _ _ hrest]
      · simp [processDiscover, emitNew, he, hs, ih _ _ hrest]
    | disc => exact absurd he (h te (List.mem_cons_self te rest))
    | searchStopped ty => simp [processDiscover, emitNew, he, ih _ _ hrest]
    | other => simp [processDiscover, emitNew, he, ih _ _ hrest]

theorem processDiscover_err :
    ∀ (l : List TEv) (seen : List (List Char)) (acc : List SInfo),
      (∃ te ∈ l, te.e = REvent.disc) →
      processDiscover l seen acc = .error discErrMsg := by
  intro l
  induction l with
  | nil => intro seen acc h; simp at h
  | cons te rest ih =>
    intro seen acc h
    cases he : te.e with
    | disc => simp [processDiscover, he]
    | resolved info =>
      have hrest : ∃ x ∈ rest, x.e = REvent.disc := by
        obtain ⟨x, hx, hxe⟩ := h
        rcases List.mem_cons.mp hx with rfl | hx'
        · rw [he] at hxe; cases hxe
        · exact ⟨x, hx', hxe⟩
      by_cases hs : info.fullname ∈ seen
      · simp [processDiscover, he, hs, ih _ _ hrest]
      · simp [processDiscover, he, hs, ih _ _ hrest]
    | searchStopped ty =>
      have hrest : ∃ x ∈ rest, x.e = REvent.disc := by
        obtain ⟨x, hx, hxe⟩ := h
        rcases List.mem_cons.mp hx with rfl | hx'
        · rw [he] at hxe; cases hxe
        · exact ⟨x, hx', hxe⟩
      simp [processDiscover, he, ih _ _ hrest]
    | other =>
      have hrest : ∃ x ∈ rest, x.e = REvent.disc := by
        obtain ⟨x, hx, hxe⟩ := h
        rcases List.mem_cons.mp hx with rfl | hx'
        · rw [he] at hxe; cases hxe
        · exact ⟨x, hx', hxe⟩
      simp [processDiscover, he, ih _ _ hrest]

theorem processTargets_ok :
    ∀ (l : List TEv) (seen acc : List (List Char)),
      (∀ te ∈ l, te.e ≠ REvent.disc) →
      processTargets l seen acc = .ok (acc ++ targetsNew l seen) := by
  intro l
  induction l with
  | nil => intro seen acc _; simp [processTargets, targetsNew]
  | cons te rest ih =>
    intro seen acc h
    have hrest : ∀ x ∈ rest, x.e ≠ REvent.disc :=
      fun x hx => h x (List.mem_cons_of_mem te hx)
    cases he : te.e with
    | resolved info =>
      simp only [processTargets, targetsNew, he]
      rw [push_targets_acc, ih _ _ hrest]
      simp
    | disc => exact absurd he (h te (List.mem_cons_self te rest))
    | searchStopped ty => simp [processTargets, targetsNew, he, ih _ _ hrest]
    | other => simp [processTargets, targetsNew, he, ih _ _ hrest]

theorem processTargets_err :
    ∀ (l : List TEv) (seen acc : List (List Char)),
      (∃ te ∈ l, te.e = REvent.disc) →
      processTargets l seen acc = .error mdnsErrMsg := by
  intro l
  induction l with
  | nil => intro seen acc h; simp at h
  | cons te rest ih =>
    intro seen acc h
    cases he : te.e with
    | disc => simp [processTargets, he]
    | resolved info =>
      have hrest : ∃ x ∈ rest, x.e = REvent.disc := by
        obtain ⟨x, hx, hxe⟩ := h
        rcases List.mem_cons.mp hx with rfl | hx'
        · rw [he] at hxe; cases hxe
        · exact ⟨x, hx', hxe⟩
      simp [processTargets, he, ih _ _ hrest]
    | searchStopped ty =>
      have hrest : ∃ x ∈ rest, x.e = REvent.disc := by
        obtain ⟨x, hx, hxe⟩ := h
        rcases List.mem_cons.mp hx with rfl | hx'
        · rw [he] at hxe; cases hxe
        · exact ⟨x, hx', hxe⟩
      simp [processTargets, he, ih _ _ hrest]
    | other =>
      have hrest : ∃ x ∈ rest, x.e = REvent.disc := by
        obtain ⟨x, hx, hxe⟩ := h
        rcases List.mem_cons.mp hx with rfl | hx'
        · rw [he] at hxe; cases hxe
        · exact ⟨x, hx', hxe⟩
      simp [processTargets, he, ih _ _ hrest]

theorem emitNew_fresh_first :
    ∀ (l : List TEv) (seen : List (List Char)) (i : SInfo), i ∈ emitNew l seen →
      i.fullname ∉ seen ∧
        (resolvedOf l).find? (fun s => s.fullname == i.fullname) = some i := by
  intro l
  induction l with
  | nil => intro seen i hi; simp [emitNew] at hi
  | cons te rest ih =>
    intro seen i hi
    cases he : te.e with
    | resolved j =>
      have hres : resolvedOf (te :: rest) = j :: resolvedOf rest := by
        simp [resolvedOf, he]
      by_cases hs : j.fullname ∈ seen
      · simp only [emitNew, he] at hi
        rw [if_pos (show seen.contains j.fullname = true by simpa using hs)] at hi
        obtain ⟨hfresh, hfind⟩ := ih seen i hi
        have hne : j.fullname ≠ i.fullname := by
          intro hh; exact hfresh (hh ▸ hs)
        refine ⟨hfresh, ?_⟩
        rw [hres, List.find?_cons_of_neg, hfind]
        simp [hne]
      · simp only [emitNew, he] at hi
        rw [if_neg (show ¬ seen.contains j.fullname = true by simpa using hs)] at hi
        rcases List.mem_cons.mp hi with rfl | hi'
        · refine ⟨hs, ?_⟩
          rw [hres, List.find?_cons_of_pos]
          simp
        · obtain ⟨hfresh, hfind⟩ := ih (j.fullname :: seen) i hi'
          have hne : j.fullname ≠ i.fullname := by
            intro hh
            exact hfresh (hh ▸ List.mem_cons_self _ _)
          refine ⟨fun hh => hfresh (List.mem_cons_of_mem _ hh), ?_⟩
          rw [hres, List.find?_cons_of_neg, hfind]
          simp [hne]
    | disc =>
      simp only [emitNew, he] at hi
      have hres : resolvedOf (te :: rest) = resolvedOf rest := by
        simp [resolvedOf, he]
      rw [hres]
      exact ih seen i hi
    | searchStopped ty =>
      simp only [emitNew, he] at hi
      have hres : resolvedOf (te :: rest) = resolvedOf rest := by
        simp [resolvedOf, he]
      rw [hres]
      exact ih seen i hi
    | other =>
      simp only [emitNew, he] at hi
      have hres : resolvedOf (te :: rest) = resolvedOf rest := by
        simp [resolvedOf, he]
      rw [hres]
      exact ih seen i hi

theorem emitNew_nodup :
    ∀ (l : List TEv) (seen : List (List Char)),
      ((emitNew l seen).map (fun i => i.fullname)).Nodup := by
  intro l
  induction l with
  | nil => intro seen; simp [emitNew]
  | cons te rest ih =>
    intro seen
    cases he : te.e with
    | resolved j =>
      by_cases hs : j.fullname ∈ seen
      · simp only [emitNew, he]
        rw [if_pos (show seen.contains j.fullname = true by simpa using hs)]
        exact ih seen
      · simp only [emitNew, he]
        rw [if_neg (show ¬ seen.contains j.fullname = true by simpa using hs)]
        simp only [List.map_cons, List.nodup_cons]
        refine ⟨?_, ih (j.fullname :: seen)⟩
        intro hmem
        obtain ⟨i, hi, hieq⟩ := List.mem_map.mp hmem
        obtain ⟨hfresh, _⟩ := emitNew_fresh_first rest (j.fullname :: seen) i hi
        exact hfresh (hieq ▸ List.mem_cons_self _ _)
    | disc => simp only [emitNew, he]; exact ih seen
    | searchStopped ty => simp only [emitNew, he]; exact ih seen
    | other => simp only [emitNew, he]; exact ih seen

theorem emitNew_complete :
    ∀ (l : List TEv) (seen : List (List Char)) (s : SInfo), s ∈ resolvedOf l →
      s.fullname ∈ seen ∨ ∃ i ∈ emitNew l seen, i.fullname = s.fullname := by
  intro l
  induction l with
  | nil => intro seen s hs; simp [resolvedOf] at hs
  | cons te rest ih =>
    intro seen s hs
    cases he : te.e with
    | resolved j =>
      have hres : resolvedOf (te :: rest) = j :: resolvedOf rest := by
        simp [resolvedOf, he]
      rw [hres] at hs
      by_cases hmem : j.fullname ∈ seen
      · simp only [emitNew, he]
        rw [if_pos (show seen.contains j.fullname = true by simpa using hmem)]
        rcases List.mem_cons.mp hs with rfl | hs'
        · exact Or.inl hmem
        · exact ih seen s hs'
      · simp only [emitNew, he]
        rw [if_neg (show ¬ seen.contains j.fullname = true by simpa using hmem)]
        rcases List.mem_cons.mp hs with heq | hs'
        · exact Or.inr ⟨j, List.mem_cons_self _ _, by rw [heq]⟩
        · rcases ih (j.fullname :: seen) s hs' with hin | ⟨i, hi, hieq⟩
          · rcases List.mem_cons.mp hin with heq | hin'
            · exact Or.inr ⟨j, List.mem_cons_self _ _, heq.symm⟩
            · exact Or.inl hin'
          · exact Or.inr ⟨i, List.mem_cons_of_mem _ hi, hieq⟩
    | disc =>
      have hres : resolvedOf (te :: rest) = resolvedOf rest := by
        simp [resolvedOf, he]
      rw [hres] at hs
      simp only [emitNew, he]
      exact ih seen s hs
    | searchStopped ty =>
      have hres : resolvedOf (te :: rest) = resolvedOf rest := by
        simp [resolvedOf, he]
      rw [hres] at hs
      simp only [emitNew, he]
      exact ih seen s hs
    | other =>
      have hres : resolvedOf (te :: rest) = resolvedOf rest := by
        simp [resolvedOf, he]
      rw [hres] at hs
      simp only [emitNew, he]
      exact ih seen s hs

theorem emitNew_sublist :
    ∀ (l : List TEv) (seen : List (List Char)),
      (emitNew l seen).Sublist (resolvedOf l) := by
  intro l
  induction l with
  | nil => intro seen; simp [emitNew, resolvedOf]
  | cons te rest ih =>
    intro seen
    cases he : te.e with
    | resolved j =>
      have hres : resolvedOf (te :: rest) = j :: resolvedOf rest := by
        simp [resolvedOf, he]
      simp only [emitNew, he, hres]
      by_cases hs : seen.contains j.fullname = true
      · rw [if_pos hs]
        exact (ih seen).cons j
      · rw [if_neg hs]
        exact (ih (j.fullname :: seen)).cons₂ j
    | disc =>
      have hres : resolvedOf (te :: rest) = resolvedOf rest := by
        simp [resolvedOf, he]
      simp only [emitNew, he, hres]
      exact ih seen
    | searchStopped ty =>
      have hres : resolvedOf (te :: rest) = resolvedOf rest := by
        simp [resolvedOf, he]
      simp only [emitNew, he, hres]
      exact ih seen
    | other =>
      have hres : resolvedOf (te :: rest) = resolvedOf rest := by
        simp [resolvedOf, he]
      simp only [emitNew, he, hres]
      exact ih seen

theorem push_targets_emit_sublist (port : List Char) :
    ∀ (addrs seen : List (List Char)),
      ((push_targets port addrs seen []).2).Sublist
        (addrs.map (fun a => a ++ ':' :: port)) := by
  intro addrs
  induction addrs with
  | nil => intro seen; simp [push_targets]
  | cons addr addrs ih =>
    intro seen
    by_cases hs : seen.contains (addr ++ ':' :: port) = true
    · simp only [push_targets, hs, if_pos, List.map_cons]
      exact (ih seen).cons _
    · simp only [push_targets, hs, Bool.false_eq_true, if_false, List.map_cons]
      rw [push_targets_acc]
      simpa using (ih ((addr ++ ':' :: port) :: seen)).cons₂ (addr ++ ':' :: port)

theorem targetsNew_sublist :
    ∀ (l : List TEv) (seen : List (List Char)),
      (targetsNew l seen).Sublist
        (((resolvedOf l).map
          (fun i => i.addresses.map (fun a => a ++ ':' :: i.port))).flatten) := by
  intro l
  induction l with
  | nil => intro seen; simp [targetsNew, resolvedOf]
  | cons te rest ih =>
    intro seen
    cases he : te.e with
    | resolved j =>
      have hres : resolvedOf (te :: rest) = j :: resolvedOf rest := by
        simp [resolvedOf, he]
      simp only [targetsNew, he, hres, List.map_cons, List.flatten_cons]
      exact (push_targets_emit_sublist j.port j.addresses seen).append
        (ih (push_targets j.port j.addresses seen []).1)
    | disc =>
      have hres : resolvedOf (te :: rest) = resolvedOf rest := by
        simp [resolvedOf, he]
      simp only [targetsNew, he, hres]
      exact ih seen
    | searchStopped ty =>
      have hres : resolvedOf (te :: rest) = resolvedOf rest := by
        simp [resolvedOf, he]
      simp only [targetsNew, he, hres]
      exact ih seen
    | other =>
      have hres : resolvedOf (te :: rest) = resolvedOf rest := by
        simp [resolvedOf, he]
      simp only [targetsNew, he, hres]
      exact ih seen

theorem consumedPrefix_time_le (deadline : Nat) :
    ∀ (l : List TEv) (now : Nat),
      ∀ te ∈ consumedPrefix deadline l now, te.t ≤ deadline := by
  intro l
  induction l with
  | nil => intro now te hte; simp [consumedPrefix] at hte
  | cons e rest ih =>
    intro now te hte
    by_cases hd : deadline ≤ now
    · simp [consumedPrefix, hd] at hte
    · by_cases ht : e.t ≤ now + (deadline - now)
      · rw [consumedPrefix, if_neg hd, if_pos ht] at hte
        rcases List.mem_cons.mp hte with rfl | hte'
        · have : now < deadline := Nat.lt_of_not_le hd
          omega
        · exact ih e.t te hte'
      · simp [consumedPrefix, hd, ht] at hte

/-- The advertised service type (src/cli/src/main.rs line 13). -/
def SERVICE_TYPE : List Char := "_cobbler._tcp".data

/-- The advertised service domain (src/cli/src/main.rs line 14). -/
def SERVICE_DOMAIN : List Char := "local.".data

/-- `entry_instance` (src/cli/src/main.rs lines 338-349): the instance name
shown in the discover table, the full service name with the
".SERVICE_TYPE.SERVICE_DOMAIN" suffix stripped when present. -/
def entry_instance (fullname : List Char) : List Char :=
  let suffix := '.' :: (trimEndMatches '.' SERVICE_TYPE ++ '.' :: SERVICE_DOMAIN)
  if suffix.isSuffixOf fullname then
    fullname.take (fullname.length - suffix.length)
  else fullname

/-- C3: the run_discover collector deduplicates by full service name — its
output names are pairwise distinct, each emitted entry is the first resolved
event carrying its name, every resolved identity within the deadline is
represented, and later duplicates are dropped. -/
theorem run_discover_dedup_first_seen (deadline : Nat) (evs : List TEv)
    (out : List SInfo)
    (hok : run_discover_loop deadline evs 0 [] [] = .ok out) :
    ((out.map (fun i => i.fullname)).Nodup)
    ∧ (∀ i ∈ out,
        (resolvedOf (consumedPrefix deadline evs 0)).find?
          (fun s => s.fullname == i.fullname) = some i)
    ∧ (∀ s ∈ resolvedOf (consumedPrefix deadline evs 0),
        ∃ i ∈ out, i.fullname = s.fullname) := by
  have hb := run_discover_loop_eq deadline evs 0 [] []
  rw [hok] at hb
  by_cases hd : ∀ te ∈ consumedPrefix deadline evs 0, te.e ≠ REvent.disc
  · rw [processDiscover_ok _ _ _ hd] at hb
    have hout : out = emitNew (consumedPrefix deadline evs 0) [] := by
      simpa using hb
    subst hout
    refine ⟨emitNew_nodup _ _, ?_, ?_⟩
    · intro i hi
      exact (emitNew_fresh_first _ _ i hi).2
    · intro s hs
      rcases emitNew_complete _ [] s hs with hin | hex
      · simp at hin
      · exact hex
  · push_neg at hd
    obtain ⟨te, hte, hdisc⟩ := hd
    rw [processDiscover_err _ _ _ ⟨te, hte, hdisc⟩] at hb
    cases hb

/-- Witness for C3: three resolved events where the second repeats the first
identity with a different address; the collector keeps the first-seen entry
for each of the two identities. -/
theorem run_discover_dedup_first_seen_witness :
    (([(⟨"a".data, [], "1".data⟩ : SInfo), ⟨"b".data, [], "1".data⟩].map
        (fun i => i.fullname)).Nodup)
    ∧ run_discover_loop 10
        [⟨1, .resolved ⟨"a".data, [], "1".data⟩⟩,
         ⟨2, .resolved ⟨"a".data, ["x".data], "1".data⟩⟩,
         ⟨3, .resolved ⟨"b".data, [], "1".data⟩⟩] 0 [] []
      = .ok [⟨"a".data, [], "1".data⟩, ⟨"b".data, [], "1".data⟩] :=
  ⟨(run_discover_dedup_first_seen 10
      [⟨1, .resolved ⟨"a".data, [], "1".data⟩⟩,
       ⟨2, .resolved ⟨"a".data, ["x".data], "1".data⟩⟩,
       ⟨3, .resolved ⟨"b".data, [], "1".data⟩⟩]
      [⟨"a".data, [], "1".data⟩, ⟨"b".data, [], "1".data⟩] (by rfl)).1,
    by rfl⟩

/-- C8: the collection loops wait with the remaining time, so every consumed
event arrives by the deadline; when no disconnect is consumed, both loops end
normally with their collected results (a timeout is not an error); a
disconnect fails the whole operation with the transport error. -/
theorem discovery_loop_remaining_time_and_errors (deadline : Nat)
    (evs : List TEv) :
    (∀ te ∈ consumedPrefix deadline evs 0, te.t ≤ deadline)
    ∧ ((∀ te ∈ consumedPrefix deadline evs 0, te.e ≠ REvent.disc) →
        run_discover_loop deadline evs 0 [] []
            = .ok (emitNew (consumedPrefix deadline evs 0) [])
        ∧ discover_targets_loop deadline evs 0 [] []
            = .ok (targetsNew (consumedPrefix deadline evs 0) []))
    ∧ ((∃ te ∈ consumedPrefix deadline evs 0, te.e = REvent.disc) →
        run_discover_loop deadline evs 0 [] [] = .error discErrMsg
        ∧ discover_targets_loop deadline evs 0 [] [] = .error mdnsErrMsg) := by
  refine ⟨consumedPrefix_time_le deadline evs 0, ?_, ?_⟩
  · intro hnd
    constructor
    · rw [run_discover_loop_eq, processDiscover_ok _ _ _ hnd]
      simp
    · rw [discover_targets_loop_eq, processTargets_ok _ _ _ hnd]
      simp
  · intro hex
    constructor
    · rw [run_discover_loop_eq, processDiscover_err _ _ _ hex]
    · rw [discover_targets_loop_eq, processTargets_err _ _ _ hex]

/-- C4 counterexample: for two resolved events arriving with instance names
out of alphabetical order, the bare discover report emits the rows in arrival
order, which is not sorted by instance name — no sort happens before display. -/
theorem run_discover_rows_not_sorted :
    run_discover_loop 10
        [⟨1, .resolved ⟨"cobblerd-b._cobbler._tcp.local.".data, [], "1".data⟩⟩,
         ⟨2, .resolved ⟨"cobblerd-a._cobbler._tcp.local.".data, [], "1".data⟩⟩]
        0 [] []
      = .ok [⟨"cobblerd-b._cobbler._tcp.local.".data, [], "1".data⟩,
             ⟨"cobblerd-a._cobbler._tcp.local.".data, [], "1".data⟩]
    ∧ entry_instance "cobblerd-b._cobbler._tcp.local.".data = "cobblerd-b".data
    ∧ entry_instance "cobblerd-a._cobbler._tcp.local.".data = "cobblerd-a".data
    ∧ ¬ List.Sorted (fun x y : List Char => ¬ y < x)
        ([(⟨"cobblerd-b._cobbler._tcp.local.".data, [], "1".data⟩ : SInfo),
          ⟨"cobblerd-a._cobbler._tcp.local.".data, [], "1".data⟩].map
          (fun i => entry_instance i.fullname)) := by
  refine ⟨by rfl, by decide, by decide, ?_⟩
  intro hsort
  have h := List.rel_of_sorted_cons hsort _ (List.mem_singleton.mpr rfl)
  revert h
  decide

/-- C4 (amended): both discovery variants emit in arrival order of
first-sight resolved events — the run_discover rows are a sublist of the
resolved events consumed, and the discover_targets output is a sublist of the
addr:port strings in arrival order; neither variant re-sorts. -/
theorem discovery_emission_arrival_order (deadline : Nat) (evs : List TEv)
    (out : List SInfo) (outT : List (List Char))
    (h1 : run_discover_loop deadline evs 0 [] [] = .ok out)
    (h2 : discover_targets_loop deadline evs 0 [] [] = .ok outT) :
    out.Sublist (resolvedOf (consumedPrefix deadline evs 0))
    ∧ outT.Sublist (((resolvedOf (consumedPrefix deadline evs 0)).map
        (fun i => i.addresses.map (fun a => a ++ ':' :: i.port))).flatten) := by
  have hb1 := run_discover_loop_eq deadline evs 0 [] []
  have hb2 := discover_targets_loop_eq deadline evs 0 [] []
  rw [h1] at hb1
  rw [h2] at hb2
  by_cases hd : ∀ te ∈ consumedPrefix deadline evs 0, te.e ≠ REvent.disc
  · rw [processDiscover_ok _ _ _ hd] at hb1
    rw [processTargets_ok _ _ _ hd] at hb2
    have hout : out = emitNew (consumedPrefix deadline evs 0) [] := by
      simpa using hb1
    have houtT : outT = targetsNew (consumedPrefix deadline evs 0) [] := by
      simpa using hb2
    subst hout houtT
    exact ⟨emitNew_sublist _ _, targetsNew_sublist _ _⟩
  · push_neg at hd
    obtain ⟨te, hte, hdisc⟩ := hd
    rw [processDiscover_err _ _ _ ⟨te, hte, hdisc⟩] at hb1
    cases hb1

/-- Witness for the amended C4 at a concrete two-event channel. -/
theorem discovery_emission_arrival_order_witness :
    ([(⟨"b".data, ["y".data], "2".data⟩ : SInfo),
      ⟨"a".data, ["x".data], "2".data⟩].Sublist
        (resolvedOf (consumedPrefix 10
          [⟨1, .resolved ⟨"b".data, ["y".data], "2".data⟩⟩,
           ⟨2, .resolved ⟨"a".data, ["x".data], "2".data⟩⟩] 0)))
    ∧ (["y:2".data, "x:2".data].Sublist
        ((resolvedOf (consumedPrefix 10
          [⟨1, .resolved ⟨"b".data, ["y".data], "2".data⟩⟩,
           ⟨2, .resolved ⟨"a".data, ["x".data], "2".data⟩⟩] 0)).map
          (fun i => i.addresses.map (fun a => a ++ ':' :: i.port))).flatten) :=
  discovery_emission_arrival_order 10
    [⟨1, .resolved ⟨"b".data, ["y".data], "2".data⟩⟩,
     ⟨2, .resolved ⟨"a".data, ["x".data], "2".data⟩⟩]
    [⟨"b".data, ["y".data], "2".data⟩, ⟨"a".data, ["x".data], "2".data⟩]
    ["y:2".data, "x:2".data] (by rfl) (by rfl)

/-! ## Daemon upgrade gate and status endpoint (src/daemon/src/main.rs)

The daemon's shared state is the single `is_upgrading: AtomicBool`. Handlers
are embedded as pure transitions on the gate value; the
`compare_exchange(false, true)` in `full_upgrade_handler` succeeds exactly
when the current value is `false`. -/

/-- What `full_upgrade_handler` (lines 167-221) produces: the HTTP status
code, the response message, the gate value when the handler returns, and
whether a background upgrade task was spawned. -/
structure HandlerResult where
  code : Nat
  message : List Char
  gate : Bool
  spawned : Bool
deriving DecidableEq

/-- The fixed message returned when the package manager probe fails. -/
def aptUnavailableMsg : List Char :=
  "the system is not a Debian-based Linux system".data

/-- `full_upgrade_handler` (lines 167-221): reject with 412 when apt is
unavailable; attempt `compare_exchange(false, true)` on the gate — on failure
(gate already true) reject with 412 leaving the gate untouched; on success
spawn the background upgrade and answer 200. -/
def full_upgrade_handler (apt_available is_upgrading : Bool) : HandlerResult :=
  if !apt_available then
    ⟨412, aptUnavailableMsg, is_upgrading, false⟩
  else if is_upgrading then
    ⟨412, "a full upgrade is currently running".data, is_upgrading, false⟩
  else
    ⟨200, "full upgrade triggered".data, true, true⟩

/-- The outcome of the spawned `apt full-upgrade -y` command: `Ok(output)`
with a success flag, or `Err(e)` when it could not be executed. -/
inductive CmdResult where
  | completed (success : Bool) (stderr : List Char)
  | execFailed (err : List Char)
deriving DecidableEq

/-- The detached upgrade task (lines 190-213): log one line according to the
command's outcome, then unconditionally `store(false)` on the gate. Returns
the log entries and the gate value after completion. -/
def upgrade_task (output : CmdResult) (_gate : Bool) :
    List (List Char) × Bool :=
  (match output with
   | .completed true _ => ["full upgrade completed successfully".data]
   | .completed false st => ["full upgrade failed".data ++ st]
   | .execFailed e => ["failed to execute full upgrade: ".data ++ e],
   false)

/-- `n` sequential full-upgrade requests with no background completion in
between: counts spawned upgrade tasks and tracks the gate. -/
def handleSeq (apt : Bool) : Nat → Bool → Nat × Bool
  | 0, g => (0, g)
  | n + 1, g =>
    let r := full_upgrade_handler apt g
    let k := handleSeq apt n r.gate
    ((if r.spawned then 1 else 0) + k.1, k.2)

theorem handleSeq_gate_true (apt : Bool) : ∀ n, handleSeq apt n true = (0, true) := by
  intro n
  induction n with
  | zero => rfl
  | succ n ih => cases apt <;> simp [handleSeq, full_upgrade_handler, ih]

/-- C1: a full-upgrade request against a gate that is already true is
rejected with 412 and leaves the gate unchanged with nothing spawned; the
gate changes only by the successful compare-and-exchange (false to true, apt
available, 200, task spawned); and any sequence of requests with no
completion in between launches at most one upgrade. -/
theorem full_upgrade_gate_mutual_exclusion (apt g : Bool) (n : Nat) :
    ((full_upgrade_handler apt true).code = 412
      ∧ (full_upgrade_handler apt true).gate = true
      ∧ (full_upgrade_handler apt true).spawned = false)
    ∧ ((full_upgrade_handler apt g).gate ≠ g →
        g = false ∧ apt = true
          ∧ (full_upgrade_handler apt g).gate = true
          ∧ (full_upgrade_handler apt g).code = 200
          ∧ (full_upgrade_handler apt g).spawned = true)
    ∧ (handleSeq apt n g).1 ≤ 1 := by
  refine ⟨by cases apt <;> exact ⟨rfl, rfl, rfl⟩, ?_, ?_⟩
  · intro hch
    cases apt <;> cases g <;> first
      | exact absurd rfl hch
      | exact ⟨rfl, rfl, rfl, rfl, rfl⟩
  · cases g
    · induction n with
      | zero => exact Nat.zero_le 1
      | succ n ih =>
        cases apt
        · simpa [handleSeq, full_upgrade_handler] using ih
        · simp [handleSeq, full_upgrade_handler, handleSeq_gate_true]
    · simp [handleSeq_gate_true apt n]

/-- C6: the background upgrade task stores false into the gate on completion
whatever the command's outcome, so after a full cycle (successful trigger,
then task completion) the gate is Idle again and a new trigger succeeds. -/
theorem upgrade_task_always_returns_to_idle (output : CmdResult) (g : Bool) :
    ((upgrade_task output g).2 = false)
    ∧ ((full_upgrade_handler true
        ((upgrade_task output (full_upgrade_handler true false).gate).2)).code
      = 200) := by
  cases output with
  | completed success st => cases success <;> exact ⟨rfl, rfl⟩
  | execFailed e => exact ⟨rfl, rfl⟩

/-- The status response body (src/daemon/src/main.rs lines 45-50). -/
structure StatusResponse where
  message : List Char
  updates : List (List Char)
  is_upgrading : Bool
deriving DecidableEq

/-- `status_handler` (lines 126-165): read the gate; when apt is unavailable
answer 412 with no updates and the gate value read; otherwise report the
update inspection's result, 200 on success and 500 on failure, always
carrying the gate value read. -/
def status_handler (apt_available : Bool)
    (updatesResult : Except (List Char) (List (List Char))) (gate : Bool) :
    Nat × StatusResponse :=
  let is_upgrading := gate
  if !apt_available then
    (412, ⟨aptUnavailableMsg, [], is_upgrading⟩)
  else
    match updatesResult with
    | .ok updates =>
      let message :=
        if updates.length = 0 then "System is up to date".data
        else "System has ".data ++ (Nat.repr updates.length).data
          ++ " outdated packages".data
      (200, ⟨message, updates, is_upgrading⟩)
    | .error err =>
      (500, ⟨"Failed to check for updates: ".data ++ err, [], is_upgrading⟩)

/-- C7: when the package-manager probe fails the status endpoint returns 412
with an empty update list and `is_upgrading` equal to the gate value read,
for either gate value; when the probe succeeds but inspection fails it
returns 500, again reporting the gate value. -/
theorem status_handler_unavailable_and_inspection_error
    (u : Except (List Char) (List (List Char))) (e : List Char) (g : Bool) :
    status_handler false u g = (412, ⟨aptUnavailableMsg, [], g⟩)
    ∧ (status_handler true (.error e) g).1 = 500
    ∧ (status_handler true (.error e) g).2.is_upgrading = g :=
  ⟨rfl, rfl, rfl⟩

/-! ## Fan-out dispatch (src/cli/src/main.rs, `run_status` lines 351-412 and
`run_packages` lines 470-527)

The HTTP client is modelled as a function from the request URL and optional
API-key header to the transport outcome; a parsed JSON body is kept opaque
(pretty-printing is the identity on it). -/

/-- A node of the YAML configuration (src/cli/src/main.rs lines 22-29). -/
structure NodeConfig where
  name : Option (List Char)
  address : List Char
  api_key : Option (List Char)
deriving DecidableEq

/-- The CLI configuration (lines 16-20). -/
structure Config where
  nodes : List NodeConfig
deriving DecidableEq

/-- The transport outcome for one request: a response with its status text
and optionally parsed JSON body, or a transport error. -/
inductive SendResult where
  | ok (status : List Char) (jsonBody : Option (List Char))
  | err (msg : List Char)

/-- One line of the aggregated report, together with what was sent. -/
structure Row where
  target : List Char
  sentUrl : List Char
  sentApiKey : Option (List Char)
  status : List Char
  body : List Char
deriving DecidableEq

/-- The API-key lookup both loops perform (lines 384-388 and 499-503): the
first config node whose address equals the literal target string, then that
node's optional key. -/
def api_key_for (config : Config) (target : List Char) : Option (List Char) :=
  match config.nodes.find? (fun n => n.address == target) with
  | some n => n.api_key
  | none => none

/-- One iteration of `run_status`'s per-target loop (lines 378-407): GET
`{resolved}/status` with the key looked up by literal target, recording the
response status and pretty-printed body, the parse-failure fallback, or the
transport error text. -/
def statusRowFor (config : Config)
    (send : List Char → Option (List Char) → SendResult)
    (target : List Char) : Row :=
  let status_url := resolve_url target ++ "/status".data
  let key := api_key_for config target
  match send status_url key with
  | .ok st (some j) => ⟨target, status_url, key, st, j⟩
  | .ok st none =>
    ⟨target, status_url, key, st, "Could not parse response as JSON".data⟩
  | .err m => ⟨target, status_url, key, "Error: ".data ++ m, []⟩

/-- The per-target loop of `run_status`. -/
def run_status_loop (config : Config)
    (send : List Char → Option (List Char) → SendResult) :
    List (List Char) → List Row
  | [] => []
  | t :: ts => statusRowFor config send t :: run_status_loop config send ts

/-- One iteration of `run_packages`'s per-target loop (lines 493-522): POST
`{resolved}/packages/full-upgrade`, with the upgrade-specific fallback body. -/
def packagesRowFor (config : Config)
    (send : List Char → Option (List Char) → SendResult)
    (target : List Char) : Row :=
  let upgrade_url := resolve_url target ++ "/packages/full-upgrade".data
  let key := api_key_for config target
  match send upgrade_url key with
  | .ok st (some j) => ⟨target, upgrade_url, key, st, j⟩
  | .ok st none =>
    ⟨target, upgrade_url, key, st, "Upgrade triggered successfully".data⟩
  | .err m => ⟨target, upgrade_url, key, "Error: ".data ++ m, []⟩

/-- The per-target loop of `run_packages`. -/
def run_packages_loop (config : Config)
    (send : List Char → Option (List Char) → SendResult) :
    List (List Char) → List Row
  | [] => []
  | t :: ts => packagesRowFor config send t :: run_packages_loop config send ts

theorem statusRowFor_target (config : Config)
    (send : List Char → Option (List Char) → SendResult) (t : List Char) :
    (statusRowFor config send t).target = t := by
  cases h : send (resolve_url t ++ "/status".data) (api_key_for config t) with
  | ok st j => cases j <;> simp [statusRowFor, h]
  | err m => simp [statusRowFor, h]

theorem packagesRowFor_target (config : Config)
    (send : List Char → Option (List Char) → SendResult) (t : List Char) :
    (packagesRowFor config send t).target = t := by
  cases h : send (resolve_url t ++ "/packages/full-upgrade".data)
      (api_key_for config t) with
  | ok st j => cases j <;> simp [packagesRowFor, h]
  | err m => simp [packagesRowFor, h]

theorem statusRowFor_key (config : Config)
    (send : List Char → Option (List Char) → SendResult) (t : List Char) :
    (statusRowFor config send t).sentApiKey = api_key_for config t := by
  cases h : send (resolve_url t ++ "/status".data) (api_key_for config t) with
  | ok st j => cases j <;> simp [statusRowFor, h]
  | err m => simp [statusRowFor, h]

theorem packagesRowFor_key (config : Config)
    (send : List Char → Option (List Char) → SendResult) (t : List Char) :
    (packagesRowFor config send t).sentApiKey = api_key_for config t := by
  cases h : send (resolve_url t ++ "/packages/full-upgrade".data)
      (api_key_for config t) with
  | ok st j => cases j <;> simp [packagesRowFor, h]
  | err m => simp [packagesRowFor, h]

/-- C5: both dispatch loops attempt every target — each row is the per-target
outcome function applied to that target alone, so one target's transport
failure cannot affect any other — and the report preserves the input order:
the rows' targets are exactly the input list. -/
theorem dispatch_attempts_every_target_in_order (config : Config)
    (send : List Char → Option (List Char) → SendResult)
    (targets : List (List Char)) :
    run_status_loop config send targets = targets.map (statusRowFor config send)
    ∧ (run_status_loop config send targets).map (fun r => r.target) = targets
    ∧ run_packages_loop config send targets
        = targets.map (packagesRowFor config send)
    ∧ (run_packages_loop config send targets).map (fun r => r.target)
        = targets := by
  induction targets with
  | nil => exact ⟨rfl, rfl, rfl, rfl⟩
  | cons t ts ih =>
    obtain ⟨ih1, ih2, ih3, ih4⟩ := ih
    refine ⟨?_, ?_, ?_, ?_⟩
    · simp [run_status_loop, ih1]
    · simp [run_status_loop, ih2, statusRowFor_target]
    · simp [run_packages_loop, ih3]
    · simp [run_packages_loop, ih4, packagesRowFor_target]

/-- C9 counterexample: with two config nodes sharing the address `"t"`, the
first without a key and the second with one, a node with an exactly matching
address and a configured credential exists, yet no credential header is
attached — the lookup stops at the first address match. -/
theorem api_key_exists_but_not_attached :
    (∃ n ∈ ({ nodes := [⟨none, "t".data, none⟩,
        ⟨none, "t".data, some "k".data⟩] } : Config).nodes,
      n.address = "t".data ∧ n.api_key = some "k".data)
    ∧ (statusRowFor
        { nodes := [⟨none, "t".data, none⟩, ⟨none, "t".data, some "k".data⟩] }
        (fun _ _ => .err []) "t".data).sentApiKey = none
    ∧ (packagesRowFor
        { nodes := [⟨none, "t".data, none⟩, ⟨none, "t".data, some "k".data⟩] }
        (fun _ _ => .err []) "t".data).sentApiKey = none := by
  refine ⟨⟨⟨none, "t".data, some "k".data⟩, ?_, rfl, rfl⟩, rfl, rfl⟩
  simp

/-- C9 (amended): a credential header is attached iff the first config node
whose address exactly equals the literal target string has a credential
configured; when no node's address equals the literal target, no header is
attached — the lookup applies no normalization to the target. -/
theorem api_key_attached_iff_first_exact_match (config : Config)
    (send : List Char → Option (List Char) → SendResult)
    (target k : List Char) :
    ((statusRowFor config send target).sentApiKey = some k ↔
      ∃ n, config.nodes.find? (fun m => m.address == target) = some n
        ∧ n.api_key = some k)
    ∧ ((packagesRowFor config send target).sentApiKey = some k ↔
      ∃ n, config.nodes.find? (fun m => m.address == target) = some n
        ∧ n.api_key = some k)
    ∧ ((∀ n ∈ config.nodes, n.address ≠ target) →
        (statusRowFor config send target).sentApiKey = none
        ∧ (packagesRowFor config send target).sentApiKey = none) := by
  have hkey : api_key_for config target = some k ↔
      ∃ n, config.nodes.find? (fun m => m.address == target) = some n
        ∧ n.api_key = some k := by
    unfold api_key_for
    cases hf : config.nodes.find? (fun m => m.address == target) with
    | none => simp
    | some n => simp
  have hnone : (∀ n ∈ config.nodes, n.address ≠ target) →
      api_key_for config target = none := by
    intro hall
    unfold api_key_for
    rw [List.find?_eq_none.mpr]
    intro n hn
    simpa using hall n hn
  refine ⟨by rw [statusRowFor_key]; exact hkey,
    by rw [packagesRowFor_key]; exact hkey, ?_⟩
  intro hall
  exact ⟨by rw [statusRowFor_key, hnone hall],
    by rw [packagesRowFor_key, hnone hall]⟩
